import Mathlib

/-!
Verification of the easyesn `BaseESN` core (src/easyesn/BaseESN.py) against its
natural-language specification.  The Python code is shallowly embedded over `ℚ`:
vectors are `Fin n → ℚ`, matrices are Mathlib `Matrix`, fallible operations
return `Except String`, and every random draw (noise samples, rotation
parameters, random indices) is an explicit parameter.
-/

set_option maxHeartbeats 2000000

namespace EasyESN

/-- Decidable equality for `Except`, used to evaluate embedded computations on
concrete inputs. -/
instance instDecEqExcept {ε α : Type} [DecidableEq ε] [DecidableEq α] :
    DecidableEq (Except ε α) := fun a b =>
  match a, b with
  | .error e, .error f =>
    if h : e = f then isTrue (by rw [h]) else isFalse (fun c => by cases c; exact h rfl)
  | .error _, .ok _ => isFalse (fun c => by cases c)
  | .ok _, .error _ => isFalse (fun c => by cases c)
  | .ok a, .ok b =>
    if h : a = b then isTrue (by rw [h]) else isFalse (fun c => by cases c; exact h rfl)

/-- Successful bind for `Except`. -/
@[simp] theorem exc_bind_ok {α β : Type} (a : α) (f : α → Except String β) :
    (Except.ok a >>= f) = f a := rfl

/-- Failing bind for `Except`. -/
@[simp] theorem exc_bind_error {α β : Type} (e : String) (f : α → Except String β) :
    ((Except.error e : Except String α) >>= f) = Except.error e := rfl

/-- `numpy.reshape(n_input, 1)` on an optional row of data: fails on `None`
(Python `AttributeError`) and on a length mismatch (`ValueError`), otherwise
yields the vector. -/
def reshapeVec (n : ℕ) : Option (List ℚ) → Except String (Fin n → ℚ)
  | Option.none => .error "AttributeError: NoneType object has no attribute reshape"
  | Option.some l =>
    if h : l.length = n then .ok (fun i => l.get (Fin.cast h.symm i))
    else .error "ValueError: cannot reshape array"

/-- Reshaping the list of values of a vector recovers the vector. -/
theorem reshapeVec_ofFn (n : ℕ) (u : Fin n → ℚ) :
    reshapeVec n (some (List.ofFn u)) = .ok u := by
  simp only [reshapeVec, List.length_ofFn, dif_pos]
  congr 1
  funext i
  simp [List.get_ofFn]

/-- The state of a `BaseESN` needed by the per-step update and by propagation:
the three weight matrices (`_W`, `_WInput`, optional `_WFeedback`) and the
scalar hyperparameters, with the activation an injected capability.
Python source: `BaseESN.__init__` fields. -/
structure ESN (nIn nRes nOut : ℕ) where
  WInput : Matrix (Fin nRes) (Fin (nIn + 1)) ℚ
  W : Matrix (Fin nRes) (Fin nRes) ℚ
  WFeedback : Option (Matrix (Fin nRes) (Fin (nOut + 1)) ℚ)
  bias : ℚ
  outputBias : ℚ
  outputInputScaling : ℚ
  leakingRate : ℚ
  noiseLevel : ℚ
  activation : ℚ → ℚ

variable {nIn nRes nOut : ℕ}

/-- `BaseESN.calculateLinearNetworkTransmissions`:
`WInput · [bias; u] + W · x`. -/
def calculateLinearNetworkTransmissions (esn : ESN nIn nRes nOut)
    (u : Fin nIn → ℚ) (x : Fin nRes → ℚ) : Fin nRes → ℚ :=
  esn.WInput.mulVec (Matrix.vecCons esn.bias u) + esn.W.mulVec x

/-- `BaseESN.update`: one discrete-time state update.  `r` is the single
`B.rand()` draw of this call (uniform in `[0,1)` in the source).  The two
in-place mutations `x *= (1-leakingRate)` and `x += leakingRate * ...` are
embedded as the intermediate `x1` and the result `x2`.  Returns the new state
together with the unscaled reshaped input returned by the Python code. -/
def update (esn : ESN nIn nRes nOut) (inputData outputData : Option (List ℚ))
    (x : Fin nRes → ℚ) (r : ℚ) :
    Except String ((Fin nRes → ℚ) × List ℚ) :=
  match esn.WFeedback with
  | Option.none => do
    let u ← reshapeVec nIn inputData
    let transmission := calculateLinearNetworkTransmissions esn u x
    let x1 := fun i => (1 - esn.leakingRate) * x i
    let x2 := fun i =>
      x1 i + esn.leakingRate * esn.activation (transmission i + (r - 1/2) * esn.noiseLevel)
    .ok (x2, List.ofFn u)
  | Option.some WFb =>
    if nIn ≠ 0 then do
      let u ← reshapeVec nIn inputData
      let y ← reshapeVec nOut outputData
      let transmission := calculateLinearNetworkTransmissions esn u x
      let x1 := fun i => (1 - esn.leakingRate) * x i
      let x2 := fun i =>
        x1 i + esn.leakingRate * esn.activation
          (transmission i + WFb.mulVec (Matrix.vecCons esn.outputBias y) i + (r - 1/2) * esn.noiseLevel)
      .ok (x2, List.ofFn u)
    else do
      let y ← reshapeVec nOut outputData
      let transmission := esn.W.mulVec x
      let x1 := fun i => (1 - esn.leakingRate) * x i
      let x2 := fun i =>
        x1 i + esn.leakingRate * esn.activation
          (transmission i + WFb.mulVec (Matrix.vecCons esn.outputBias y) i + (r - 1/2) * esn.noiseLevel)
      .ok (x2, ([] : List ℚ))

/-- C1: for every call to `update` with state `x`, input `u` and (when feedback
is enabled) feedback vector `y`, the new state equals
`(1 - leakingRate) * x + leakingRate * activation(WInput·[bias; u] + W·x
(+ WFeedback·[outputBias; y] when feedback is enabled) + noise)`, with
`noise = (r - 1/2) * noiseLevel` a single scalar per step (`r` the one
`B.rand()` draw of the call, uniform in `[0,1)` so `r - 1/2 ∈ [-1/2, 1/2)`);
and when feedback is enabled and `n_input = 0` the `WInput` term is omitted
entirely, the update being driven by recurrence plus feedback only. -/
theorem claim1_update_formula (esn : ESN nIn nRes nOut)
    (u : Fin nIn → ℚ) (y : Fin nOut → ℚ) (x : Fin nRes → ℚ) (r : ℚ) :
    (esn.WFeedback = Option.none →
      ∀ od, Except.map Prod.fst (update esn (some (List.ofFn u)) od x r) =
        .ok (fun i => (1 - esn.leakingRate) * x i +
          esn.leakingRate * esn.activation
            ((esn.WInput.mulVec (Matrix.vecCons esn.bias u) + esn.W.mulVec x) i +
              (r - 1/2) * esn.noiseLevel))) ∧
    (∀ F, esn.WFeedback = Option.some F →
      Except.map Prod.fst
          (update esn (some (List.ofFn u)) (some (List.ofFn y)) x r) =
        .ok (fun i => (1 - esn.leakingRate) * x i +
          esn.leakingRate * esn.activation
            (((if nIn = 0 then 0 else esn.WInput.mulVec (Matrix.vecCons esn.bias u)) +
                esn.W.mulVec x +
                F.mulVec (Matrix.vecCons esn.outputBias y)) i +
              (r - 1/2) * esn.noiseLevel))) := by
  constructor
  · intro hfb od
    simp [update, hfb, reshapeVec_ofFn, calculateLinearNetworkTransmissions, Except.map]
  · intro F hfb
    by_cases h0 : nIn = 0
    · simp [update, hfb, h0, reshapeVec_ofFn, Except.map]
    · simp [update, hfb, h0, reshapeVec_ofFn, calculateLinearNetworkTransmissions, Except.map]

/-- Concrete no-feedback ESN used to instantiate the `update` theorem. -/
def esnNoFbW : ESN 1 1 1 :=
  ⟨!![1, 2], !![3], Option.none, 1, 1, 1, 1/2, 2, fun q => q + 1⟩

/-- Concrete feedback ESN (one input dimension) for the `update` theorem. -/
def esnFbW : ESN 1 1 1 :=
  ⟨!![1, 2], !![3], Option.some !![5, 6], 1, 1, 1, 1/2, 2, fun q => q + 1⟩

/-- Concrete feedback ESN with zero input dimensions for the `update` theorem. -/
def esnFb0W : ESN 0 1 1 :=
  ⟨!![7], !![3], Option.some !![5, 6], 1, 1, 1, 1/2, 2, fun q => q + 1⟩

/-- Witness for C1: the update formula evaluated at concrete inputs in all
three branches (no feedback; feedback with input; feedback with `n_input = 0`). -/
theorem claim1_witness :
    Except.map Prod.fst
        (update esnNoFbW (some (List.ofFn ![(1 : ℚ)])) Option.none ![4] 1) =
      .ok ![21/2] ∧
    Except.map Prod.fst
        (update esnFbW (some (List.ofFn ![(1 : ℚ)])) (some (List.ofFn ![(1 : ℚ)])) ![4] 1) =
      .ok ![16] ∧
    Except.map Prod.fst
        (update esnFb0W (some (List.ofFn (![] : Fin 0 → ℚ)))
          (some (List.ofFn ![(1 : ℚ)])) ![4] 1) =
      .ok ![29/2] :=
  ⟨((claim1_update_formula esnNoFbW ![1] ![1] ![4] 1).1 rfl Option.none).trans (by
      congr 1
      funext i
      fin_cases i
      norm_num [esnNoFbW, Matrix.mulVec, Matrix.dotProduct, Fin.sum_univ_succ]),
   ((claim1_update_formula esnFbW ![1] ![1] ![4] 1).2 _ rfl).trans (by
      congr 1
      funext i
      fin_cases i
      norm_num [esnFbW, Matrix.mulVec, Matrix.dotProduct, Fin.sum_univ_succ]),
   ((claim1_update_formula esnFb0W ![] ![1] ![4] 1).2 _ rfl).trans (by
      congr 1
      funext i
      fin_cases i
      norm_num [esnFb0W, Matrix.mulVec, Matrix.dotProduct, Fin.sum_univ_succ])⟩

/-- A single `Q[i, j] = v` entry assignment on a matrix, as done in
`create_random_rotation_matrix`. -/
def setEntry (n : ℕ) (M : Matrix (Fin n) (Fin n) ℚ) (i j : Fin n) (v : ℚ) :
    Matrix (Fin n) (Fin n) ℚ :=
  Matrix.of fun a b => if a = i ∧ b = j then v else M a b

/-- `BaseESN.create_random_rotation_matrix`: `h` and `k` are the two
independent `rnd.randint(0, n_reservoir)` draws and `c`, `s` are
`cos(phi)`, `sin(phi)` for the random angle `phi`.  The four entry assignments
of the source are applied in order (later assignments overwrite earlier ones,
which matters when `h = k`). -/
def create_random_rotation_matrix (n : ℕ) (h k : Fin n) (c s : ℚ) :
    Matrix (Fin n) (Fin n) ℚ :=
  setEntry n (setEntry n (setEntry n (setEntry n 1 h h c) k k c) h k (-s)) k h s

/-- C3 (code bug): the random index draws `h` and `k` are independent, so
`h = k` occurs; in that case the four assignments collapse onto the single
diagonal cell `Q[h, h]`, leaving `sin(phi)` there, and the produced factor is
not a rotation matrix.  Evaluated at `n_reservoir = 2`, `h = k = 0`,
`cos(phi) = 3/5`, `sin(phi) = 4/5`: the factor is `diag(4/5, 1)`, it is not
orthogonal, and it does not preserve the norm of the basis vector `e₀` —
contradicting the claim that every applied factor is a norm-preserving
rotation (and hence the exact-spectral-radius consequence drawn from it). -/
theorem claim3_rotation_bug :
    ((3/5 : ℚ)^2 + (4/5)^2 = 1) ∧
    create_random_rotation_matrix 2 0 0 (3/5) (4/5) = Matrix.of ![![4/5, 0], ![0, 1]] ∧
    ¬ ((create_random_rotation_matrix 2 0 0 (3/5) (4/5)).transpose *
        create_random_rotation_matrix 2 0 0 (3/5) (4/5) = 1) ∧
    (∑ i, ((create_random_rotation_matrix 2 0 0 (3/5) (4/5)).mulVec ![1, 0] i)^2) ≠
      ∑ i, (![1, 0] i : ℚ)^2 := by
  refine ⟨by norm_num, ?_, ?_, ?_⟩
  · ext i j
    fin_cases i <;> fin_cases j <;>
      norm_num [create_random_rotation_matrix, setEntry, Matrix.one_apply]
  · intro hcontra
    have h00 : ((create_random_rotation_matrix 2 0 0 (3/5) (4/5)).transpose *
        create_random_rotation_matrix 2 0 0 (3/5) (4/5)) 0 0 = (1 : Matrix (Fin 2) (Fin 2) ℚ) 0 0 := by
      rw [hcontra]
    norm_num [Matrix.mul_apply, Matrix.transpose_apply, Fin.sum_univ_succ,
      create_random_rotation_matrix, setEntry, Matrix.one_apply] at h00
  · norm_num [Matrix.mulVec, Matrix.dotProduct, Fin.sum_univ_succ,
      create_random_rotation_matrix, setEntry]

/-- The `inputScaling` handling at the start of `BaseESN.__init__`
(lines 38-47).  The Python code assigns `self._inputScaling` only when the
`inputScaling` argument is `None`, then immediately reads
`np.isscalar(self._inputScaling)`; the read of the unset attribute is the
`AttributeError` branch.  The argument is a scalar (`Sum.inl`) or a vector
(`Sum.inr`); the result is the expanded input scaling `[1.0] ++ inputScaling`. -/
def initInputScaling (nIn : ℕ) (inputScalingArg : Option (ℚ ⊕ List ℚ)) :
    Except String (List ℚ) :=
  let stored : Option (ℚ ⊕ List ℚ) :=
    match inputScalingArg with
    | Option.none => some (Sum.inl 1)
    | Option.some _ => Option.none
  match stored with
  | Option.none =>
    .error "AttributeError: BaseESN object has no attribute inputScalingAttr"
  | Option.some (Sum.inl q) => .ok (1 :: List.replicate nIn q)
  | Option.some (Sum.inr v) =>
    if v.length ≠ nIn then
      .error "ValueError: Dimension of inputScaling does not match the input data dimension"
    else .ok (1 :: v)

/-- C6 (code bug): every construction call with a non-`None` `inputScaling`
argument — scalar or vector, matched or mismatched length — fails with the
same `AttributeError` (reading `self._inputScaling` before it is assigned),
so the dimension-mismatch `ValueError` of line 44 is unreachable and no
configuration check ever runs; only the default `inputScaling = None` path
completes, yielding the expanded scaling `[1.0] ++ ones(n_input)`. -/
theorem claim6_inputScaling_dead_check :
    (∀ (nIn : ℕ) (v : ℚ ⊕ List ℚ),
      initInputScaling nIn (some v) =
        .error "AttributeError: BaseESN object has no attribute inputScalingAttr") ∧
    (∀ nIn : ℕ,
      initInputScaling nIn Option.none = .ok (1 :: List.replicate nIn 1)) :=
  ⟨fun _ _ => rfl, fun _ => rfl⟩

/-- The mutable state touched by `BaseESN.setInputScaling`: the stored scalar
`_inputScaling` (the only value reachable from the constructor, see C6), the
derived `_expandedInputScaling`, and `_WInput`. -/
structure ScalingState (nIn nRes : ℕ) where
  inputScalingVal : ℚ
  expandedInputScaling : Fin (nIn + 1) → ℚ
  WInputM : Matrix (Fin nRes) (Fin (nIn + 1)) ℚ

/-- `BaseESN.setInputScaling` as written: the expanded scaling is rebuilt from
the OLD `self._inputScaling` (`B.ones(n) * self._inputScaling`), `_WInput` is
multiplied by `expanded / self._inputScaling`, and only afterwards is
`self._inputScaling` set to the new value. -/
def setInputScaling {nIn nRes : ℕ} (st : ScalingState nIn nRes)
    (newInputScaling : ℚ) : ScalingState nIn nRes :=
  let inputScaling : Fin nIn → ℚ := fun _ => st.inputScalingVal
  let expanded : Fin (nIn + 1) → ℚ := Matrix.vecCons 1 inputScaling
  let WInput2 : Matrix (Fin nRes) (Fin (nIn + 1)) ℚ :=
    Matrix.of fun i j => st.WInputM i j * (expanded j / st.inputScalingVal)
  ⟨newInputScaling, expanded, WInput2⟩

/-- The claimed behaviour of `setInputScaling`, from the spec words: the
stored expanded scaling becomes `[1.0]` prepended to the NEW scaling
(broadcast over `n_input`), and the rows of `WInput` are rescaled so the new
scaling replaces the old one. -/
def setInputScalingSpec {nIn nRes : ℕ} (st : ScalingState nIn nRes)
    (newInputScaling : ℚ) : ScalingState nIn nRes :=
  let expandedNew : Fin (nIn + 1) → ℚ := Matrix.vecCons 1 (fun _ => newInputScaling)
  let WInput2 : Matrix (Fin nRes) (Fin (nIn + 1)) ℚ :=
    Matrix.of fun i j => st.WInputM i j * (expandedNew j / st.expandedInputScaling j)
  ⟨newInputScaling, expandedNew, WInput2⟩

/-- Concrete scaling state for the C8 evaluation: `_inputScaling = 1`,
`_expandedInputScaling = [1, 1]`, `_WInput = [[2, 3]]`. -/
def scalingStateW : ScalingState 1 1 := ⟨1, ![1, 1], !![2, 3]⟩

/-- C8 (code bug): calling `setInputScaling 2` on a state with old scaling `1`
leaves the expanded scaling at `[1, 1]` and `WInput` at `[[2, 3]]`, because
the source rebuilds the expanded scaling from the old `_inputScaling` before
storing the new one; the claimed behaviour gives `[1, 2]` and `[[2, 6]]`.
The code and the claim disagree on both stored values. -/
theorem claim8_setInputScaling_bug :
    (setInputScaling scalingStateW 2).expandedInputScaling = ![1, 1] ∧
    (setInputScalingSpec scalingStateW 2).expandedInputScaling = ![1, 2] ∧
    (setInputScaling scalingStateW 2).WInputM = !![2, 3] ∧
    (setInputScalingSpec scalingStateW 2).WInputM = !![2, 6] ∧
    (setInputScaling scalingStateW 2).expandedInputScaling ≠
      (setInputScalingSpec scalingStateW 2).expandedInputScaling ∧
    (setInputScaling scalingStateW 2).WInputM ≠
      (setInputScalingSpec scalingStateW 2).WInputM := by
  have h1 : (setInputScaling scalingStateW 2).expandedInputScaling = ![1, 1] := by
    funext j
    fin_cases j <;> norm_num [setInputScaling, scalingStateW]
  have h2 : (setInputScalingSpec scalingStateW 2).expandedInputScaling = ![1, 2] := by
    funext j
    fin_cases j <;> norm_num [setInputScalingSpec, scalingStateW]
  have h3 : (setInputScaling scalingStateW 2).WInputM = !![2, 3] := by
    ext i j
    fin_cases i <;> fin_cases j <;> norm_num [setInputScaling, scalingStateW]
  have h4 : (setInputScalingSpec scalingStateW 2).WInputM = !![2, 6] := by
    ext i j
    fin_cases i <;> fin_cases j <;> norm_num [setInputScalingSpec, scalingStateW]
  refine ⟨h1, h2, h3, h4, ?_, ?_⟩
  · rw [h1, h2]
    intro hcontra
    have := congrFun hcontra 1
    norm_num at this
  · rw [h3, h4]
    intro hcontra
    have := congrFun (congrFun hcontra 0) 1
    norm_num at this

/-- `seq[t]` on an optional sequence: `None` is not subscriptable, and an
index beyond the end raises `IndexError`. -/
def getItem {α : Type} : Option (List α) → ℕ → Except String α
  | Option.none, _ => .error "TypeError: NoneType object is not subscriptable"
  | Option.some l, t =>
    if h : t < l.length then .ok (l.get ⟨t, h⟩)
    else .error "IndexError: list index out of range"

/-- `X[:, j] = col` on the design matrix, kept as the list of its columns
(written in order `j = 0, 1, ...`): numpy accepts the assignment only when the
column has exactly the height of the matrix, otherwise `ValueError`. -/
def appendCol (rows : ℕ) (acc : List (List ℚ)) (col : List ℚ) :
    Except String (List (List ℚ)) :=
  if col.length = rows then .ok (acc ++ [col])
  else .error "ValueError: could not broadcast input array"

/-- `Y[i, :] = row` with numpy bounds and shape checking. -/
def setRow (Y : List (List ℚ)) (i : ℕ) (row : List ℚ) (rowLen : ℕ) :
    Except String (List (List ℚ)) :=
  if i < Y.length ∧ row.length = rowLen then .ok (Y.set i row)
  else .error "IndexError: index out of bounds"

/-- The value returned by `BaseESN.propagate`: the design matrix `X` alone, or
the pair `(X, Y)` with the generated output sequence. -/
inductive PropResult where
  | single : List (List ℚ) → PropResult
  | withOutput : List (List ℚ) → List (List ℚ) → PropResult
deriving DecidableEq

/-- The design matrix of a propagation result. -/
def designOf : PropResult → List (List ℚ)
  | .single X => X
  | .withOutput X _ => X

/-- Whether a propagation result is the pair `(X, Y)`. -/
def isPair : PropResult → Bool
  | .single _ => false
  | .withOutput _ _ => true

/-- Derivation of the step count in `propagate` (lines 87-94): the length of
`inputData` when present, else the length of `outputData` when present, else
the `steps` argument, where `Option.none` for `steps` stands for the
unresolved string `auto`. -/
def derivedLength (inputs outputs : Option (List (List ℚ))) (steps : Option ℕ) :
    Option ℕ :=
  match inputs with
  | Option.some l => some l.length
  | Option.none =>
    match outputs with
    | Option.some o => some o.length
    | Option.none => steps

/-- The propagation loop with feedback disabled (lines 107-113): at each step
the state is updated from `inputData[t]`, and once `t ≥ transientTime` the
column `[outputBias; outputInputScaling·u; x]` is written into the design
matrix. -/
def loopNoFb (esn : ESN nIn nRes nOut) (inputs : Option (List (List ℚ)))
    (noise : ℕ → ℚ) (T : ℕ) :
    ℕ → ℕ → (Fin nRes → ℚ) → List (List ℚ) →
    Except String ((Fin nRes → ℚ) × List (List ℚ))
  | _, 0, x, acc => .ok (x, acc)
  | t, fuel + 1, x, acc => do
    let row ← getItem inputs t
    let p ← update esn (some row) Option.none x (noise t)
    let acc2 ← if T ≤ t then
        appendCol (1 + nIn + nRes) acc
          (esn.outputBias :: (p.2.map (fun v => esn.outputInputScaling * v) ++ List.ofFn p.1))
      else pure acc
    loopNoFb esn inputs noise T (t + 1) fuel p.1 acc2

/-- The propagation loop with feedback enabled and `inputData = None`
(lines 121-138): the update consumes only the previous output; the design
column is `[outputBias; x]`; in autoregressive mode (`outputData = None`) the
next feedback is the readout prediction on `[outputBias; x]` and is stored in
row `t - transientTime` of `Y` once `t ≥ transientTime`, while in teacher
forcing it is `outputData[t]`. -/
def loopFbNoIn (esn : ESN nIn nRes nOut) (predict : List ℚ → List ℚ)
    (outputs : Option (List (List ℚ))) (noise : ℕ → ℚ) (T : ℕ) :
    ℕ → ℕ → (Fin nRes → ℚ) → List ℚ → List (List ℚ) → List (List ℚ) →
    Except String ((Fin nRes → ℚ) × List (List ℚ) × List (List ℚ))
  | _, 0, x, _, acc, Y => .ok (x, acc, Y)
  | t, fuel + 1, x, prevOut, acc, Y => do
    let p ← update esn Option.none (some prevOut) x (noise t)
    let acc2 ← if T ≤ t then
        appendCol (1 + nIn + nRes) acc (esn.outputBias :: List.ofFn p.1)
      else pure acc
    match outputs with
    | Option.none =>
      let pred := predict (esn.outputBias :: List.ofFn p.1)
      let Y2 ← if T ≤ t then setRow Y (t - T) pred nOut else pure Y
      loopFbNoIn esn predict outputs noise T (t + 1) fuel p.1 pred acc2 Y2
    | Option.some o => do
      let pred ← getItem (some o) t
      loopFbNoIn esn predict outputs noise T (t + 1) fuel p.1 pred acc2 Y

/-- The propagation loop with feedback enabled and an input sequence
(lines 140-156): the update consumes `inputData[t]` and the previous output;
the design column is `[outputBias; outputInputScaling·u; x]`; in
autoregressive mode the prediction is written into row `t` of `Y`
unconditionally (the source indexes `Y[t]`, not `Y[t - transientTime]`),
while in teacher forcing the next feedback is `outputData[t]`. -/
def loopFbIn (esn : ESN nIn nRes nOut) (predict : List ℚ → List ℚ)
    (inputs outputs : Option (List (List ℚ))) (noise : ℕ → ℚ) (T : ℕ) :
    ℕ → ℕ → (Fin nRes → ℚ) → List ℚ → List (List ℚ) → List (List ℚ) →
    Except String ((Fin nRes → ℚ) × List (List ℚ) × List (List ℚ))
  | _, 0, x, _, acc, Y => .ok (x, acc, Y)
  | t, fuel + 1, x, prevOut, acc, Y => do
    let row ← getItem inputs t
    let p ← update esn (some row) (some prevOut) x (noise t)
    let col := esn.outputBias ::
      (p.2.map (fun v => esn.outputInputScaling * v) ++ List.ofFn p.1)
    let acc2 ← if T ≤ t then appendCol (1 + nIn + nRes) acc col else pure acc
    match outputs with
    | Option.none =>
      let pred := predict col
      let Y2 ← setRow Y t pred nOut
      loopFbIn esn predict inputs outputs noise T (t + 1) fuel p.1 pred acc2 Y2
    | Option.some o => do
      let pred ← getItem (some o) t
      loopFbIn esn predict inputs outputs noise T (t + 1) fuel p.1 pred acc2 Y

/-- `BaseESN.propagate` after the step count `L` has been derived: allocate
the design matrix (`numpy` rejects a negative column count `L - T`), then run
the loop matching the feedback/input configuration, and return `X` alone or
`(X, Y)` as the source does.  `predict` is the injected readout capability
used in autoregressive mode. -/
def propagateCore (esn : ESN nIn nRes nOut) (predict : List ℚ → List ℚ)
    (inputs outputs : Option (List (List ℚ))) (T : ℕ) (noise : ℕ → ℚ)
    (x0 : Fin nRes → ℚ) (L : ℕ) : Except String PropResult :=
  if L < T then .error "ValueError: negative dimensions are not allowed"
  else
    match esn.WFeedback with
    | Option.none => do
      let p ← loopNoFb esn inputs noise T 0 L x0 []
      .ok (.single p.2)
    | Option.some _ =>
      let Y0 := List.replicate (L - T) (List.replicate nOut 0)
      let prev0 : List ℚ := List.replicate nOut 0
      match inputs with
      | Option.none => do
        let p ← loopFbNoIn esn predict outputs noise T 0 L x0 prev0 [] Y0
        if outputs = Option.none then .ok (.withOutput p.2.1 p.2.2)
        else .ok (.single p.2.1)
      | Option.some _ => do
        let p ← loopFbIn esn predict inputs outputs noise T 0 L x0 prev0 [] Y0
        if outputs = Option.none then .ok (.withOutput p.2.1 p.2.2)
        else .ok (.single p.2.1)

/-- `BaseESN.propagate`: derive the step count from
`{inputData, outputData, steps}` (a fatal error if none determines it), then
run the propagation. -/
def propagate (esn : ESN nIn nRes nOut) (predict : List ℚ → List ℚ)
    (inputs outputs : Option (List (List ℚ))) (T : ℕ) (steps : Option ℕ)
    (noise : ℕ → ℚ) (x0 : Fin nRes → ℚ) : Except String PropResult :=
  match derivedLength inputs outputs steps with
  | Option.none =>
    .error "ValueError: inputData and outputData are both None. Therefore, steps must not be auto."
  | Option.some L => propagateCore esn predict inputs outputs T noise x0 L

/-- `pure` on `Except` is `Except.ok`. -/
@[simp] theorem exc_pure {α : Type} (a : α) : (pure a : Except String α) = .ok a := rfl

/-- Inversion of a successful `Except` bind. -/
theorem bind_ok_elim {α β : Type} {e : Except String α} {f : α → Except String β} {b : β}
    (h : (e >>= f) = .ok b) : ∃ a, e = .ok a ∧ f a = .ok b := by
  cases e with
  | error err => simp only [exc_bind_error] at h; exact Except.noConfusion h
  | ok a => exact ⟨a, rfl, by simpa using h⟩

/-- Inversion of a successful column assignment. -/
theorem appendCol_ok {rows : ℕ} {acc : List (List ℚ)} {col : List ℚ}
    {acc2 : List (List ℚ)} (h : appendCol rows acc col = .ok acc2) :
    acc2 = acc ++ [col] ∧ col.length = rows := by
  by_cases hc : col.length = rows
  · rw [appendCol, if_pos hc] at h
    injection h with h2
    exact ⟨h2.symm, hc⟩
  · rw [appendCol, if_neg hc] at h
    exact Except.noConfusion h

/-- Shape invariant of the no-feedback propagation loop: on success, one
column is appended per step `t` with `T ≤ t`, and every appended column has
height `1 + n_input + n_reservoir`. -/
theorem loopNoFb_shape (esn : ESN nIn nRes nOut) (inputs : Option (List (List ℚ)))
    (noise : ℕ → ℚ) (T : ℕ) :
    ∀ (fuel t : ℕ) (x : Fin nRes → ℚ) (acc : List (List ℚ))
      (x2 : Fin nRes → ℚ) (acc2 : List (List ℚ)),
      loopNoFb esn inputs noise T t fuel x acc = .ok (x2, acc2) →
      acc2.length = acc.length + (t + fuel - max T t) ∧
      (∀ c ∈ acc2, c ∈ acc ∨ c.length = 1 + nIn + nRes) := by
  intro fuel
  induction fuel with
  | zero =>
    intro t x acc x2 acc2 h
    simp only [loopNoFb, Except.ok.injEq, Prod.mk.injEq] at h
    obtain ⟨rfl, rfl⟩ := h
    exact ⟨by omega, fun c hc => Or.inl hc⟩
  | succ fuel ih =>
    intro t x acc x2 acc2 h
    simp only [loopNoFb] at h
    obtain ⟨row, hg, h⟩ := bind_ok_elim h
    obtain ⟨p, hu, h⟩ := bind_ok_elim h
    by_cases hT : T ≤ t
    · rw [if_pos hT] at h
      obtain ⟨acc3, ha, h⟩ := bind_ok_elim h
      obtain ⟨hacc3, hlen⟩ := appendCol_ok ha
      obtain ⟨ih1, ih2⟩ := ih (t + 1) p.1 acc3 x2 acc2 h
      constructor
      · rw [ih1, hacc3, List.length_append]
        simp only [List.length_singleton]
        omega
      · intro c hc
        rcases ih2 c hc with hmem | hl
        · rw [hacc3] at hmem
          rcases List.mem_append.mp hmem with h1 | h1
          · exact Or.inl h1
          · right
            rw [List.mem_singleton.mp h1]
            exact hlen
        · exact Or.inr hl
    · rw [if_neg hT] at h
      obtain ⟨acc3, ha, h⟩ := bind_ok_elim h
      rw [exc_pure] at ha
      injection ha with ha
      subst ha
      obtain ⟨ih1, ih2⟩ := ih (t + 1) p.1 acc x2 acc2 h
      exact ⟨by rw [ih1]; omega, ih2⟩

/-- Shape invariant of the feedback propagation loop without inputs. -/
theorem loopFbNoIn_shape (esn : ESN nIn nRes nOut) (predict : List ℚ → List ℚ)
    (outputs : Option (List (List ℚ))) (noise : ℕ → ℚ) (T : ℕ) :
    ∀ (fuel t : ℕ) (x : Fin nRes → ℚ) (prevOut : List ℚ) (acc Y : List (List ℚ))
      (x2 : Fin nRes → ℚ) (acc2 Y2 : List (List ℚ)),
      loopFbNoIn esn predict outputs noise T t fuel x prevOut acc Y = .ok (x2, acc2, Y2) →
      acc2.length = acc.length + (t + fuel - max T t) ∧
      (∀ c ∈ acc2, c ∈ acc ∨ c.length = 1 + nIn + nRes) := by
  intro fuel
  induction fuel with
  | zero =>
    intro t x prevOut acc Y x2 acc2 Y2 h
    simp only [loopFbNoIn, Except.ok.injEq, Prod.mk.injEq] at h
    obtain ⟨rfl, rfl, rfl⟩ := h
    exact ⟨by omega, fun c hc => Or.inl hc⟩
  | succ fuel ih =>
    intro t x prevOut acc Y x2 acc2 Y2 h
    simp only [loopFbNoIn] at h
    obtain ⟨p, hu, h⟩ := bind_ok_elim h
    by_cases hT : T ≤ t
    · rw [if_pos hT] at h
      obtain ⟨acc3, ha, h⟩ := bind_ok_elim h
      obtain ⟨hacc3, hlen⟩ := appendCol_ok ha
      have hlen3 : acc3.length = acc.length + 1 := by
        rw [hacc3, List.length_append, List.length_singleton]
      have hmem3 : ∀ c ∈ acc3, c ∈ acc ∨ c.length = 1 + nIn + nRes := by
        intro c hc
        rw [hacc3] at hc
        rcases List.mem_append.mp hc with h1 | h1
        · exact Or.inl h1
        · right
          rw [List.mem_singleton.mp h1]
          exact hlen
      cases outputs with
      | none =>
        rw [if_pos hT] at h
        obtain ⟨Y3, hs, h⟩ := bind_ok_elim h
        obtain ⟨ih1, ih2⟩ := ih (t + 1) p.1 _ acc3 Y3 x2 acc2 Y2 h
        refine ⟨by rw [ih1, hlen3]; omega, fun c hc => ?_⟩
        rcases ih2 c hc with hmem | hl
        · exact hmem3 c hmem
        · exact Or.inr hl
      | some o =>
        obtain ⟨pred, hgo, h⟩ := bind_ok_elim h
        obtain ⟨ih1, ih2⟩ := ih (t + 1) p.1 pred acc3 Y x2 acc2 Y2 h
        refine ⟨by rw [ih1, hlen3]; omega, fun c hc => ?_⟩
        rcases ih2 c hc with hmem | hl
        · exact hmem3 c hmem
        · exact Or.inr hl
    · rw [if_neg hT] at h
      obtain ⟨acc3, ha, h⟩ := bind_ok_elim h
      rw [exc_pure] at ha
      injection ha with ha
      subst ha
      cases outputs with
      | none =>
        rw [if_neg hT] at h
        obtain ⟨Y3, hs, h⟩ := bind_ok_elim h
        rw [exc_pure] at hs
        injection hs with hs
        subst hs
        obtain ⟨ih1, ih2⟩ := ih (t + 1) p.1 _ acc Y x2 acc2 Y2 h
        refine ⟨by rw [ih1]; omega, fun c hc => ?_⟩
        rcases ih2 c hc with hmem | hl
        · exact Or.inl hmem
        · exact Or.inr hl
      | some o =>
        obtain ⟨pred, hgo, h⟩ := bind_ok_elim h
        obtain ⟨ih1, ih2⟩ := ih (t + 1) p.1 pred acc Y x2 acc2 Y2 h
        refine ⟨by rw [ih1]; omega, fun c hc => ?_⟩
        rcases ih2 c hc with hmem | hl
        · exact Or.inl hmem
        · exact Or.inr hl

/-- Shape invariant of the feedback propagation loop with inputs. -/
theorem loopFbIn_shape (esn : ESN nIn nRes nOut) (predict : List ℚ → List ℚ)
    (inputs outputs : Option (List (List ℚ))) (noise : ℕ → ℚ) (T : ℕ) :
    ∀ (fuel t : ℕ) (x : Fin nRes → ℚ) (prevOut : List ℚ) (acc Y : List (List ℚ))
      (x2 : Fin nRes → ℚ) (acc2 Y2 : List (List ℚ)),
      loopFbIn esn predict inputs outputs noise T t fuel x prevOut acc Y = .ok (x2, acc2, Y2) →
      acc2.length = acc.length + (t + fuel - max T t) ∧
      (∀ c ∈ acc2, c ∈ acc ∨ c.length = 1 + nIn + nRes) := by
  intro fuel
  induction fuel with
  | zero =>
    intro t x prevOut acc Y x2 acc2 Y2 h
    simp only [loopFbIn, Except.ok.injEq, Prod.mk.injEq] at h
    obtain ⟨rfl, rfl, rfl⟩ := h
    exact ⟨by omega, fun c hc => Or.inl hc⟩
  | succ fuel ih =>
    intro t x prevOut acc Y x2 acc2 Y2 h
    simp only [loopFbIn] at h
    obtain ⟨row, hg, h⟩ := bind_ok_elim h
    obtain ⟨p, hu, h⟩ := bind_ok_elim h
    by_cases hT : T ≤ t
    · rw [if_pos hT] at h
      obtain ⟨acc3, ha, h⟩ := bind_ok_elim h
      obtain ⟨hacc3, hlen⟩ := appendCol_ok ha
      have hlen3 : acc3.length = acc.length + 1 := by
        rw [hacc3, List.length_append, List.length_singleton]
      have hmem3 : ∀ c ∈ acc3, c ∈ acc ∨ c.length = 1 + nIn + nRes := by
        intro c hc
        rw [hacc3] at hc
        rcases List.mem_append.mp hc with h1 | h1
        · exact Or.inl h1
        · right
          rw [List.mem_singleton.mp h1]
          exact hlen
      cases outputs with
      | none =>
        obtain ⟨Y3, hs, h⟩ := bind_ok_elim h
        obtain ⟨ih1, ih2⟩ := ih (t + 1) p.1 _ acc3 Y3 x2 acc2 Y2 h
        refine ⟨by rw [ih1, hlen3]; omega, fun c hc => ?_⟩
        rcases ih2 c hc with hmem | hl
        · exact hmem3 c hmem
        · exact Or.inr hl
      | some o =>
        obtain ⟨pred, hgo, h⟩ := bind_ok_elim h
        obtain ⟨ih1, ih2⟩ := ih (t + 1) p.1 pred acc3 Y x2 acc2 Y2 h
        refine ⟨by rw [ih1, hlen3]; omega, fun c hc => ?_⟩
        rcases ih2 c hc with hmem | hl
        · exact hmem3 c hmem
        · exact Or.inr hl
    · rw [if_neg hT] at h
      obtain ⟨acc3, ha, h⟩ := bind_ok_elim h
      rw [exc_pure] at ha
      injection ha with ha
      subst ha
      cases outputs with
      | none =>
        obtain ⟨Y3, hs, h⟩ := bind_ok_elim h
        obtain ⟨ih1, ih2⟩ := ih (t + 1) p.1 _ acc Y3 x2 acc2 Y2 h
        refine ⟨by rw [ih1]; omega, fun c hc => ?_⟩
        rcases ih2 c hc with hmem | hl
        · exact Or.inl hmem
        · exact Or.inr hl
      | some o =>
        obtain ⟨pred, hgo, h⟩ := bind_ok_elim h
        obtain ⟨ih1, ih2⟩ := ih (t + 1) p.1 pred acc Y x2 acc2 Y2 h
        refine ⟨by rw [ih1]; omega, fun c hc => ?_⟩
        rcases ih2 c hc with hmem | hl
        · exact Or.inl hmem
        · exact Or.inr hl

/-- When the step count is derivable, `propagate` runs `propagateCore`. -/
theorem propagate_with_length (esn : ESN nIn nRes nOut) (predict : List ℚ → List ℚ)
    (inputs outputs : Option (List (List ℚ))) (T : ℕ) (steps : Option ℕ)
    (noise : ℕ → ℚ) (x0 : Fin nRes → ℚ) (L : ℕ)
    (hL : derivedLength inputs outputs steps = some L) :
    propagate esn predict inputs outputs T steps noise x0 =
      propagateCore esn predict inputs outputs T noise x0 L := by
  unfold propagate
  rw [hL]

/-- C2: for every call to `propagate` with `transientTime = T` over a sequence
whose derived length is `L` with `0 ≤ T < L`, the returned design matrix has
exactly `L - T` columns and every column has exactly
`1 + n_input + n_reservoir` entries. -/
theorem claim2_design_shape (esn : ESN nIn nRes nOut) (predict : List ℚ → List ℚ)
    (inputs outputs : Option (List (List ℚ))) (T : ℕ) (steps : Option ℕ)
    (noise : ℕ → ℚ) (x0 : Fin nRes → ℚ) (L : ℕ) (res : PropResult)
    (hL : derivedLength inputs outputs steps = some L) (hT : T < L)
    (hok : propagate esn predict inputs outputs T steps noise x0 = .ok res) :
    (designOf res).length = L - T ∧
    ∀ c ∈ designOf res, c.length = 1 + nIn + nRes := by
  rw [propagate_with_length esn predict inputs outputs T steps noise x0 L hL] at hok
  unfold propagateCore at hok
  rw [if_neg (by omega)] at hok
  cases hfb : esn.WFeedback with
  | none =>
    rw [hfb] at hok
    obtain ⟨p, hl, hres⟩ := bind_ok_elim hok
    injection hres with hres
    obtain ⟨h1, h2⟩ := loopNoFb_shape esn inputs noise T L 0 x0 [] p.1 p.2 hl
    rw [← hres]
    simp only [designOf]
    constructor
    · rw [h1]
      simp only [List.length_nil]
      omega
    · intro c hc
      rcases h2 c hc with hmem | hlen
      · exact absurd hmem (List.not_mem_nil c)
      · exact hlen
  | some F =>
    rw [hfb] at hok
    cases inputs with
    | none =>
      obtain ⟨p, hl, hres⟩ := bind_ok_elim hok
      obtain ⟨h1, h2⟩ := loopFbNoIn_shape esn predict outputs noise T L 0 x0 _ [] _
        p.1 p.2.1 p.2.2 hl
      have hd : designOf res = p.2.1 := by
        by_cases ho : outputs = Option.none
        · rw [if_pos ho] at hres
          injection hres with hres
          rw [← hres]
          rfl
        · rw [if_neg ho] at hres
          injection hres with hres
          rw [← hres]
          rfl
      rw [hd]
      constructor
      · rw [h1]
        simp only [List.length_nil]
        omega
      · intro c hc
        rcases h2 c hc with hmem | hlen
        · exact absurd hmem (List.not_mem_nil c)
        · exact hlen
    | some inp =>
      obtain ⟨p, hl, hres⟩ := bind_ok_elim hok
      obtain ⟨h1, h2⟩ := loopFbIn_shape esn predict (some inp) outputs noise T L 0 x0 _ [] _
        p.1 p.2.1 p.2.2 hl
      have hd : designOf res = p.2.1 := by
        by_cases ho : outputs = Option.none
        · rw [if_pos ho] at hres
          injection hres with hres
          rw [← hres]
          rfl
        · rw [if_neg ho] at hres
          injection hres with hres
          rw [← hres]
          rfl
      rw [hd]
      constructor
      · rw [h1]
        simp only [List.length_nil]
        omega
      · intro c hc
        rcases h2 c hc with hmem | hlen
        · exact absurd hmem (List.not_mem_nil c)
        · exact hlen

/-- Concrete no-feedback ESN for instantiating the propagation theorems. -/
def esnC2 : ESN 1 1 1 := ⟨!![0, 0], !![0], Option.none, 1, 1, 1, 1, 0, fun q => q⟩

/-- Witness for C2: propagating a 2-step input sequence with
`transientTime = 1` through a concrete no-feedback ESN yields a design matrix
with `2 - 1` columns. -/
theorem claim2_witness :
    (designOf (PropResult.single [[(1 : ℚ), 2, 0]])).length = 2 - 1 :=
  (claim2_design_shape esnC2 (fun _ => [0]) (some [[1], [2]]) Option.none 1 Option.none
    (fun _ => 0) ![0] 2 (PropResult.single [[1, 2, 0]]) (by simp [derivedLength]) (by omega)
    (by norm_num [propagate, derivedLength, propagateCore, loopNoFb, getItem, update,
      reshapeVec, calculateLinearNetworkTransmissions, appendCol, esnC2,
      Matrix.mulVec, Matrix.dotProduct, Fin.sum_univ_succ, List.ofFn_succ,
      List.ofFn_zero])).1

/-- With feedback disabled and a null input sequence, the propagation loop
raises at its first step (`inputData[t]` subscripts `None`). -/
theorem loopNoFb_none_error (esn : ESN nIn nRes nOut) (noise : ℕ → ℚ)
    (T t fuel : ℕ) (x : Fin nRes → ℚ) (acc : List (List ℚ)) :
    loopNoFb esn Option.none noise T t (fuel + 1) x acc =
      .error "TypeError: NoneType object is not subscriptable" := by
  simp only [loopNoFb, getItem, exc_bind_error]

/-- Concrete no-feedback ESN for the C7 counterexample. -/
def esnC7 : ESN 1 1 1 := ⟨!![0, 0], !![0], Option.none, 1, 1, 1, 1, 0, fun q => q⟩

/-- Counterexample to C7 as stated: with feedback disabled and
`inputData = None` but `outputData = []` (derived length `0`), `propagate`
does NOT fail — it returns an empty design matrix, because the step loop never
runs and `inputData` is never subscripted. -/
theorem claim7_counterexample :
    propagate esnC7 (fun _ => [0]) Option.none (some []) 0 Option.none
      (fun _ => 0) ![0] = .ok (PropResult.single []) := by
  rfl

/-- C7 (amended): for every call to `propagate` with feedback disabled and a
null input sequence, the call fails unless the derived step count is zero and
`transientTime` is also zero: it raises the explicit
`steps must not be auto` `ValueError` when no step count can be derived, the
numpy negative-dimension `ValueError` when `transientTime` exceeds the derived
step count, and the `TypeError` from subscripting the null input at the first
loop step in every remaining (nonzero-length) case; in the single degenerate
case — derived step count zero and `transientTime` zero — the call succeeds
and returns an empty design matrix. -/
theorem claim7_null_input_fails (esn : ESN nIn nRes nOut) (predict : List ℚ → List ℚ)
    (outputs : Option (List (List ℚ))) (T : ℕ) (steps : Option ℕ) (noise : ℕ → ℚ)
    (x0 : Fin nRes → ℚ)
    (hfb : esn.WFeedback = Option.none) :
    (derivedLength Option.none outputs steps = Option.none →
      propagate esn predict Option.none outputs T steps noise x0 =
        .error "ValueError: inputData and outputData are both None. Therefore, steps must not be auto.") ∧
    (∀ L, derivedLength Option.none outputs steps = some L → L < T →
      propagate esn predict Option.none outputs T steps noise x0 =
        .error "ValueError: negative dimensions are not allowed") ∧
    (∀ L, derivedLength Option.none outputs steps = some L → T ≤ L → L ≠ 0 →
      propagate esn predict Option.none outputs T steps noise x0 =
        .error "TypeError: NoneType object is not subscriptable") ∧
    (derivedLength Option.none outputs steps = some 0 → T = 0 →
      propagate esn predict Option.none outputs T steps noise x0 =
        .ok (PropResult.single [])) := by
  refine ⟨?_, ?_, ?_, ?_⟩
  · intro hD
    unfold propagate
    rw [hD]
  · intro L hD hLT
    rw [propagate_with_length esn predict Option.none outputs T steps noise x0 L hD]
    unfold propagateCore
    rw [if_pos hLT]
  · intro L hD hTL hL0
    rw [propagate_with_length esn predict Option.none outputs T steps noise x0 L hD]
    unfold propagateCore
    rw [if_neg (by omega)]
    obtain ⟨fuel, rfl⟩ : ∃ f, L = f + 1 := ⟨L - 1, by omega⟩
    simp only [hfb, loopNoFb_none_error, exc_bind_error]
  · intro hD hT0
    subst hT0
    rw [propagate_with_length esn predict Option.none outputs 0 steps noise x0 0 hD]
    unfold propagateCore
    rw [if_neg (by omega)]
    simp only [hfb]
    rfl

/-- Witness for C7 (amended): with feedback disabled and a null input, a
1-step teacher sequence fails with the subscripting `TypeError`, a 0-step
sequence with `transientTime = 1` fails with the negative-dimension
`ValueError`, and the degenerate 0-step, zero-transient call succeeds with an
empty design matrix. -/
theorem claim7_witness :
    propagate esnC7 (fun _ => [0]) Option.none (some [[1]]) 0 Option.none
      (fun _ => 0) ![0] = .error "TypeError: NoneType object is not subscriptable" ∧
    propagate esnC7 (fun _ => [0]) Option.none (some []) 1 Option.none
      (fun _ => 0) ![0] = .error "ValueError: negative dimensions are not allowed" ∧
    propagate esnC7 (fun _ => [0]) Option.none (some []) 0 Option.none
      (fun _ => 0) ![0] = .ok (PropResult.single []) :=
  ⟨(claim7_null_input_fails esnC7 (fun _ => [0]) (some [[1]]) 0 Option.none
      (fun _ => 0) ![0] rfl).2.2.1 1 (by simp [derivedLength]) (by omega) (by omega),
   (claim7_null_input_fails esnC7 (fun _ => [0]) (some []) 1 Option.none
      (fun _ => 0) ![0] rfl).2.1 0 (by simp [derivedLength]) (by omega),
   (claim7_null_input_fails esnC7 (fun _ => [0]) (some []) 0 Option.none
      (fun _ => 0) ![0] rfl).2.2.2 (by simp [derivedLength]) rfl⟩

/-- C10: `propagate` returns the pair `(X, Y)` — design matrix plus generated
output sequence — if and only if the feedback matrix is present and no target
output sequence is supplied (autoregressive mode); in every other mode it
returns the design matrix `X` alone. -/
theorem claim10_return_mode (esn : ESN nIn nRes nOut) (predict : List ℚ → List ℚ)
    (inputs outputs : Option (List (List ℚ))) (T : ℕ) (steps : Option ℕ)
    (noise : ℕ → ℚ) (x0 : Fin nRes → ℚ) (res : PropResult)
    (hok : propagate esn predict inputs outputs T steps noise x0 = .ok res) :
    isPair res = true ↔ (esn.WFeedback.isSome = true ∧ outputs = Option.none) := by
  cases hD : derivedLength inputs outputs steps with
  | none =>
    unfold propagate at hok
    rw [hD] at hok
    exact Except.noConfusion hok
  | some L =>
    rw [propagate_with_length esn predict inputs outputs T steps noise x0 L hD] at hok
    unfold propagateCore at hok
    by_cases hTL : L < T
    · rw [if_pos hTL] at hok
      exact Except.noConfusion hok
    · rw [if_neg hTL] at hok
      cases hfb : esn.WFeedback with
      | none =>
        rw [hfb] at hok
        obtain ⟨p, hl, hres⟩ := bind_ok_elim hok
        injection hres with hres
        subst hres
        simp [isPair, hfb]
      | some F =>
        rw [hfb] at hok
        cases inputs with
        | none =>
          obtain ⟨p, hl, hres⟩ := bind_ok_elim hok
          by_cases ho : outputs = Option.none
          · rw [if_pos ho] at hres
            injection hres with hres
            subst hres
            simp [isPair, hfb, ho]
          · rw [if_neg ho] at hres
            injection hres with hres
            subst hres
            simp [isPair, hfb, ho]
        | some inp =>
          obtain ⟨p, hl, hres⟩ := bind_ok_elim hok
          by_cases ho : outputs = Option.none
          · rw [if_pos ho] at hres
            injection hres with hres
            subst hres
            simp [isPair, hfb, ho]
          · rw [if_neg ho] at hres
            injection hres with hres
            subst hres
            simp [isPair, hfb, ho]

/-- Concrete feedback ESN for the C10 witness (autoregressive mode). -/
def esnC10 : ESN 1 1 1 :=
  ⟨!![0, 0], !![0], Option.some !![0, 0], 1, 1, 1, 1, 0, fun q => q⟩

/-- Witness for C10: an autoregressive call (feedback present, no targets)
on a concrete ESN returns the pair `(X, Y)`. -/
theorem claim10_witness :
    isPair (PropResult.withOutput [[(1 : ℚ), 1, 0]] [[5]]) = true ↔
      (esnC10.WFeedback.isSome = true ∧
        (Option.none : Option (List (List ℚ))) = Option.none) :=
  claim10_return_mode esnC10 (fun _ => [5]) (some [[1]]) Option.none 0 Option.none
    (fun _ => 0) ![0] (PropResult.withOutput [[1, 1, 0]] [[5]])
    (by norm_num [propagate, derivedLength, propagateCore, loopFbIn, getItem, update,
      reshapeVec, calculateLinearNetworkTransmissions, appendCol, setRow, esnC10,
      Matrix.mulVec, Matrix.dotProduct, Fin.sum_univ_succ, List.ofFn_succ,
      List.ofFn_zero])

/-- A Python value passed in a sequence slot: an array of rows, a bare float,
or `None`.  Needed because `calculateTransientTime` passes its float `epsilon`
into the `outputs` parameter of `_calculateTransientTime` (the call site
supplies four positional arguments for a five-parameter signature). -/
inductive SeqArg where
  | null
  | scalar (q : ℚ)
  | arr (l : List (List ℚ))
deriving DecidableEq

/-- `seq.shape[0]`. -/
def seqLen : SeqArg → Except String ℕ
  | .arr l => .ok l.length
  | .scalar _ => .error "AttributeError: float object has no attribute shape"
  | .null => .error "AttributeError: NoneType object has no attribute shape"

/-- `seq[t]` on a `SeqArg`. -/
def seqItem : SeqArg → ℕ → Except String (List ℚ)
  | .arr l, t =>
    if h : t < l.length then .ok (l.get ⟨t, h⟩)
    else .error "IndexError: index out of bounds"
  | .scalar _, _ => .error "TypeError: float object is not subscriptable"
  | .null, _ => .error "TypeError: NoneType object is not subscriptable"

/-- `u = inputs[t].reshape(-1, 1) if inputs is not None else None`
(line 360). -/
def getU (inputs : SeqArg) (t : ℕ) : Except String (Option (List ℚ)) :=
  match inputs with
  | .null => .ok Option.none
  | s => do
    let r ← seqItem s t
    .ok (some r)

/-- `o = outputs[t].reshape(-1, 1) if inputs is not None else None`
(line 361) — the guard tests INPUTS, not outputs, before subscripting
`outputs`, exactly as the source does. -/
def getO (inputs outputs : SeqArg) (t : ℕ) : Except String (Option (List ℚ)) :=
  match inputs with
  | .null => .ok Option.none
  | _ => do
    let r ← seqItem outputs t
    .ok (some r)

/-- `BaseESN.isEpsilonClose`: every pair of trajectories is strictly within
`eps` componentwise. -/
def isEpsilonClose (xs : List (Fin nRes → ℚ)) (eps : ℚ) : Bool :=
  xs.all fun xi => xs.all fun xj => decide (∀ k, |xi k - xj k| < eps)

/-- The inner `for x_i in x: self.update(u, o, x_i)` of
`_calculateTransientTime` (lines 362-363): every trajectory is advanced in
place, each `update` call drawing its own noise sample `ns i`. -/
def updateAll (esn : ESN nIn nRes nOut) (u o : Option (List ℚ)) (ns : ℕ → ℚ) :
    List (Fin nRes → ℚ) → ℕ → Except String (List (Fin nRes → ℚ))
  | [], _ => .ok []
  | xi :: rest, i => do
    let p ← update esn u o xi (ns i)
    let rest2 ← updateAll esn u o ns rest (i + 1)
    .ok (p.1 :: rest2)

/-- The step loop of `_calculateTransientTime` (lines 351-363): check
closeness, manage the consecutive-closeness counter `c` — returning
`t - proximityLength` when a close step finds the counter already at
`proximityLength` — then advance every trajectory.  Falling off the end of
the sequence returns Python `None` (`Option.none`). -/
def calcTTLoop (esn : ESN nIn nRes nOut) (noise : ℕ → ℕ → ℚ)
    (inputs outputs : SeqArg) (eps : ℚ) (P : ℕ) :
    ℕ → ℕ → ℕ → List (Fin nRes → ℚ) → Except String (Option ℕ)
  | _, 0, _, _ => .ok Option.none
  | t, fuel + 1, c, xs =>
    if isEpsilonClose xs eps then
      if P ≤ c then .ok (some (t - P))
      else do
        let u ← getU inputs t
        let o ← getO inputs outputs t
        let xs2 ← updateAll esn u o (noise t) xs 0
        calcTTLoop esn noise inputs outputs eps P (t + 1) fuel (c + 1) xs2
    else do
      let u ← getU inputs t
      let o ← getO inputs outputs t
      let xs2 ← updateAll esn u o (noise t) xs 0
      calcTTLoop esn noise inputs outputs eps P (t + 1) fuel 0 xs2

/-- `BaseESN._calculateTransientTime`: derive the length from `inputs`
(falling back to `outputs.shape[0]` when `inputs` is `None`) and run the step
loop from counter `0`. -/
def calcTransientTimeInner (esn : ESN nIn nRes nOut) (noise : ℕ → ℕ → ℚ)
    (xs : List (Fin nRes → ℚ)) (inputs outputs : SeqArg) (eps : ℚ) (P : ℕ) :
    Except String (Option ℕ) := do
  let L ← match inputs with
    | SeqArg.null => seqLen outputs
    | s => seqLen s
  calcTTLoop esn noise inputs outputs eps P 0 L 0 xs

/-- `BaseESN.calculateTransientTime`: build the two trajectories (all zeros
and all ones) and call
`self._calculateTransientTime(x, inputs, epsilon, proximityLength)` — four
positional arguments for the five-parameter signature
`(x, inputs, outputs, epsilon, proximityLength)`, so `epsilon` lands in the
`outputs` slot, `proximityLength` in the `epsilon` slot, and the
`proximityLength` parameter keeps its default `50`. -/
def calculateTransientTime (esn : ESN nIn nRes nOut) (noise : ℕ → ℕ → ℚ)
    (inputs : SeqArg) (eps : ℚ) (P : ℕ) : Except String (Option ℕ) :=
  calcTransientTimeInner esn noise [fun _ => 0, fun _ => 1] inputs
    (SeqArg.scalar eps) (P : ℚ) 50

/-- Concrete ESN for the C4 evaluation (zero reservoir units, so the
closeness check is vacuously true and the run reaches the subscripting of the
shifted argument immediately). -/
def esnC4 : ESN 1 0 1 := ⟨Matrix.of ![], Matrix.of ![], Option.none, 1, 1, 1, 1, 0, fun q => q⟩

/-- C4 (code bug): every call to `calculateTransientTime` raises.  The call
site passes `epsilon` into the `outputs` parameter of
`_calculateTransientTime` and `proximityLength` into the `epsilon` parameter,
so closeness is judged against `proximityLength` (not `epsilon`) and at the
first step the float `epsilon` is subscripted as `outputs[t]`, raising
`TypeError` — the claimed lockstep propagation with `epsilon`-closeness never
happens.  Evaluated at a concrete one-step input sequence. -/
theorem claim4_transient_call_bug :
    calculateTransientTime esnC4 (fun _ _ => 0) (SeqArg.arr [[0]]) (1/2) 50 =
      .error "TypeError: float object is not subscriptable" := by
  rfl

/-- Spec-side trajectory: the list of trajectory states before step `t` when
`_calculateTransientTime` is driven by proper input and output arrays. -/
def trajTT (esn : ESN nIn nRes nOut) (noise : ℕ → ℕ → ℚ)
    (ins outs : List (List ℚ)) (xs0 : List (Fin nRes → ℚ)) :
    ℕ → Except String (List (Fin nRes → ℚ))
  | 0 => .ok xs0
  | t + 1 => do
    let xs ← trajTT esn noise ins outs xs0 t
    let u ← getU (SeqArg.arr ins) t
    let o ← getO (SeqArg.arr ins) (SeqArg.arr outs) t
    updateAll esn u o (noise t) xs 0

/-- Spec-side closeness at step `t`: the trajectories exist and are pairwise
within `eps`. -/
def closeAtB (esn : ESN nIn nRes nOut) (noise : ℕ → ℕ → ℚ)
    (ins outs : List (List ℚ)) (xs0 : List (Fin nRes → ℚ)) (eps : ℚ) (t : ℕ) :
    Bool :=
  match trajTT esn noise ins outs xs0 t with
  | .ok xs => isEpsilonClose xs eps
  | .error _ => false

/-- Spec-side value of the consecutive-closeness counter before step `t`: the
length of the run of close steps immediately preceding `t`. -/
def specRun (esn : ESN nIn nRes nOut) (noise : ℕ → ℕ → ℚ)
    (ins outs : List (List ℚ)) (xs0 : List (Fin nRes → ℚ)) (eps : ℚ) :
    ℕ → ℕ
  | 0 => 0
  | t + 1 =>
    if closeAtB esn noise ins outs xs0 eps t then
      specRun esn noise ins outs xs0 eps t + 1
    else 0

/-- `update` succeeds whenever both data rows are present with the right
dimensions. -/
theorem update_ok_of_lengths (esn : ESN nIn nRes nOut) (u o : List ℚ)
    (hu : u.length = nIn) (ho : o.length = nOut) (x : Fin nRes → ℚ) (r : ℚ) :
    ∃ p, update esn (some u) (some o) x r = .ok p := by
  cases hfb : esn.WFeedback with
  | none =>
    simp only [update, hfb, reshapeVec, hu, dif_pos, exc_bind_ok]
    exact ⟨_, rfl⟩
  | some F =>
    by_cases h0 : nIn ≠ 0
    · simp only [update, hfb, if_pos h0, reshapeVec, hu, ho, dif_pos, exc_bind_ok]
      exact ⟨_, rfl⟩
    · simp only [update, hfb, if_neg h0, reshapeVec, ho, dif_pos, exc_bind_ok]
      exact ⟨_, rfl⟩

/-- `updateAll` succeeds whenever both data rows are present with the right
dimensions. -/
theorem updateAll_ok (esn : ESN nIn nRes nOut) (u o : List ℚ)
    (hu : u.length = nIn) (ho : o.length = nOut) (ns : ℕ → ℚ) :
    ∀ (xs : List (Fin nRes → ℚ)) (i : ℕ),
      ∃ ys, updateAll esn (some u) (some o) ns xs i = .ok ys := by
  intro xs
  induction xs with
  | nil => exact fun i => ⟨[], rfl⟩
  | cons xi rest ih =>
    intro i
    obtain ⟨p, hp⟩ := update_ok_of_lengths esn u o hu ho xi (ns i)
    obtain ⟨ys, hys⟩ := ih (i + 1)
    exact ⟨p.1 :: ys, by simp only [updateAll, hp, exc_bind_ok, hys]⟩

/-- If the return condition — a close step with the counter already at
`proximityLength` — never holds, the transient loop falls off the sequence
and yields `None`. -/
theorem calcTTLoop_no_trigger (esn : ESN nIn nRes nOut) (noise : ℕ → ℕ → ℚ)
    (ins outs : List (List ℚ)) (xs0 : List (Fin nRes → ℚ)) (eps : ℚ) (P : ℕ)
    (hlen : ins.length ≤ outs.length)
    (hin : ∀ row ∈ ins, row.length = nIn)
    (hout : ∀ row ∈ outs, row.length = nOut)
    (hnc : ∀ t2 < ins.length,
      ¬(closeAtB esn noise ins outs xs0 eps t2 = true ∧
        P ≤ specRun esn noise ins outs xs0 eps t2)) :
    ∀ (fuel t c : ℕ) (xs : List (Fin nRes → ℚ)),
      t + fuel = ins.length →
      trajTT esn noise ins outs xs0 t = .ok xs →
      c = specRun esn noise ins outs xs0 eps t →
      calcTTLoop esn noise (SeqArg.arr ins) (SeqArg.arr outs) eps P t fuel c xs =
        .ok Option.none := by
  intro fuel
  induction fuel with
  | zero => intro t c xs _ _ _; rfl
  | succ fuel ih =>
    intro t c xs htf htraj hc
    have ht : t < ins.length := by omega
    have ht2 : t < outs.length := by omega
    have hu : getU (SeqArg.arr ins) t = .ok (some (ins.get ⟨t, ht⟩)) := by
      simp only [getU, seqItem, ht, dif_pos, exc_bind_ok]
    have ho : getO (SeqArg.arr ins) (SeqArg.arr outs) t =
        .ok (some (outs.get ⟨t, ht2⟩)) := by
      simp only [getO, seqItem, ht2, dif_pos, exc_bind_ok]
    obtain ⟨ys, hys⟩ := updateAll_ok esn (ins.get ⟨t, ht⟩) (outs.get ⟨t, ht2⟩)
      (hin _ (ins.get_mem _ _)) (hout _ (outs.get_mem _ _)) (noise t) xs 0
    have htraj2 : trajTT esn noise ins outs xs0 (t + 1) = .ok ys := by
      simp only [trajTT, htraj, exc_bind_ok, hu, ho, hys]
    by_cases hcl : isEpsilonClose xs eps = true
    · have hclose : closeAtB esn noise ins outs xs0 eps t = true := by
        simp only [closeAtB, htraj]
        exact hcl
      have hPc : ¬ P ≤ c := fun hP => hnc t ht ⟨hclose, hc ▸ hP⟩
      simp only [calcTTLoop, if_pos hcl, if_neg hPc, hu, ho, hys, exc_bind_ok]
      exact ih (t + 1) (c + 1) ys (by omega) htraj2 (by
        simp only [specRun, hclose, if_pos]
        omega)
    · have hclose : closeAtB esn noise ins outs xs0 eps t = false := by
        simp only [closeAtB, htraj]
        exact Bool.not_eq_true _ ▸ (by simpa using hcl)
      simp only [calcTTLoop, if_neg hcl, hu, ho, hys, exc_bind_ok]
      exact ih (t + 1) 0 ys (by omega) htraj2 (by
        simp only [specRun, hclose]
        rfl)

/-- C5: whenever `_calculateTransientTime`, driven by proper input and output
arrays, exhausts the driving sequence without the consecutive-closeness
counter reaching `proximityLength`, the result is Python `None`
(`Option.none`) — distinguishable from every valid transient-length index
`some (t - proximityLength)`, never conflated with one. -/
theorem claim5_nonconvergence (esn : ESN nIn nRes nOut) (noise : ℕ → ℕ → ℚ)
    (ins outs : List (List ℚ)) (xs0 : List (Fin nRes → ℚ)) (eps : ℚ) (P : ℕ)
    (hlen : ins.length ≤ outs.length)
    (hin : ∀ row ∈ ins, row.length = nIn)
    (hout : ∀ row ∈ outs, row.length = nOut)
    (hnc : ∀ t2 < ins.length,
      ¬(closeAtB esn noise ins outs xs0 eps t2 = true ∧
        P ≤ specRun esn noise ins outs xs0 eps t2)) :
    calcTransientTimeInner esn noise xs0 (SeqArg.arr ins) (SeqArg.arr outs) eps P =
      .ok Option.none := by
  unfold calcTransientTimeInner
  simp only [seqLen, exc_bind_ok]
  exact calcTTLoop_no_trigger esn noise ins outs xs0 eps P hlen hin hout hnc
    ins.length 0 0 xs0 (by omega) rfl rfl

/-- Concrete ESN for the C5 witness. -/
def esnC5 : ESN 1 1 1 := ⟨!![0, 0], !![0], Option.none, 1, 1, 1, 1, 0, fun q => q⟩

/-- Witness for C5: a one-step run whose counter (at most `0` before the only
step) never reaches `proximityLength = 5` yields `None`. -/
theorem claim5_witness :
    calcTransientTimeInner esnC5 (fun _ _ => 0) [fun _ => 0, fun _ => 1]
      (SeqArg.arr [[0]]) (SeqArg.arr [[0]]) 0 5 = .ok Option.none :=
  claim5_nonconvergence esnC5 (fun _ _ => 0) [[0]] [[0]] [fun _ => 0, fun _ => 1] 0 5
    (by omega)
    (by intro row hrow; simp at hrow; simp [hrow])
    (by intro row hrow; simp at hrow; simp [hrow])
    (by
      intro t2 ht2
      simp only [List.length_cons, List.length_nil] at ht2
      have ht0 : t2 = 0 := by omega
      subst ht0
      intro hAnd
      exact absurd hAnd.2 (by norm_num [specRun]))

/-- `np.argmin`: index of the first minimum of a nonempty list (`np.argmin`
raises on an empty array; the `[]` case here is unreachable from `SWD`). -/
def argminIdx : List ℚ → ℕ
  | [] => 0
  | [_] => 0
  | v :: w :: rest =>
    let j := argminIdx (w :: rest)
    if (w :: rest).getD j 0 < v then j + 1 else 0

/-- `np.sum(np.abs(reference_series - series[i:i+intervall]))` as numpy
computes it: elementwise difference of the two slices, absolute value, sum. -/
def sadImpl (series : List ℚ) (w i : ℕ) : ℚ :=
  (((series.take w).zip ((series.drop i).take w)).map fun p => |p.1 - p.2|).sum

/-- The sliding-window sum of absolute differences written indexwise — the
spec side of C9: reference window `series[0:w]` against the window at offset
`w + k`. -/
def sadSpec (series : List ℚ) (w k : ℕ) : ℚ :=
  ∑ j in Finset.range w, |series.getD j 0 - series.getD (w + k + j) 0|

/-- The `differences` array filled by the loop of `BaseESN.SWD`
(lines 386-389): entry `k` holds `int(np.sum(np.abs(ref - series[i:i+w])))`
for `i = w + k`; the Python `int(...)` cast floors the nonnegative sum. -/
def swdDifferences (series : List ℚ) (intervall : ℕ) : List ℚ :=
  (List.range (series.length - 2 * intervall)).map
    fun k => ((⌊sadImpl series intervall (intervall + k)⌋ : ℤ) : ℚ)

/-- `BaseESN.SWD`: allocate `np.zeros(L - 2w)` (`ValueError` when the size is
negative), fill it with the truncated window differences, and return
`(np.argmin(differences) + intervall, differences)` (`np.argmin` raises on an
empty array). -/
def SWD (series : List ℚ) (intervall : ℕ) : Except String (ℕ × List ℚ) :=
  if series.length < 2 * intervall then
    .error "ValueError: negative dimensions are not allowed"
  else if (swdDifferences series intervall).length = 0 then
    .error "ValueError: attempt to get argmin of an empty sequence"
  else
    .ok (argminIdx (swdDifferences series intervall) + intervall,
      swdDifferences series intervall)

/-- Elementwise absolute-difference sum over zipped lists, indexwise. -/
theorem zip_abs_sum : ∀ l1 l2 : List ℚ,
    ((l1.zip l2).map fun p => |p.1 - p.2|).sum =
      ∑ j in Finset.range (min l1.length l2.length), |l1.getD j 0 - l2.getD j 0| := by
  intro l1
  induction l1 with
  | nil => intro l2; simp
  | cons a l1 ih =>
    intro l2
    cases l2 with
    | nil => simp
    | cons b l2 =>
      simp only [List.zip_cons_cons, List.map_cons, List.sum_cons, List.length_cons]
      have hmin : min (l1.length + 1) (l2.length + 1) = min l1.length l2.length + 1 := by
        omega
      rw [hmin, Finset.sum_range_succ']
      simp only [List.getD_cons_succ, List.getD_cons_zero]
      rw [ih l2]
      ring

/-- For in-range windows, the numpy slice computation agrees with the
indexwise sum of absolute differences. -/
theorem sadImpl_eq_spec (series : List ℚ) (w k : ℕ)
    (h : w + k + w ≤ series.length) :
    sadImpl series w (w + k) = sadSpec series w k := by
  unfold sadImpl sadSpec
  rw [zip_abs_sum]
  have h1 : (series.take w).length = w := by
    rw [List.length_take]
    omega
  have h2 : ((series.drop (w + k)).take w).length = w := by
    rw [List.length_take, List.length_drop]
    omega
  rw [h1, h2, min_self]
  refine Finset.sum_congr rfl ?_
  intro j hj
  rw [Finset.mem_range] at hj
  have hjt : j < (series.take w).length := by omega
  have hjd : j < ((series.drop (w + k)).take w).length := by omega
  rw [List.getD_eq_getElem _ _ hjt, List.getD_eq_getElem _ _ hjd,
    List.getElem_take, List.getElem_take, List.getElem_drop,
    ← List.getD_eq_getElem series 0 (show j < series.length by omega),
    ← List.getD_eq_getElem series 0 (show w + k + j < series.length by omega)]

/-- `argminIdx` returns the index of the first minimum: it is in range, its
value is a lower bound of all entries, and every earlier entry is strictly
larger. -/
theorem argminIdx_spec : ∀ l : List ℚ, l ≠ [] →
    argminIdx l < l.length ∧
    (∀ k, k < l.length → l.getD (argminIdx l) 0 ≤ l.getD k 0) ∧
    (∀ k, k < argminIdx l → l.getD (argminIdx l) 0 < l.getD k 0) := by
  intro l
  induction l with
  | nil => intro h; exact absurd rfl h
  | cons v rest ih =>
    intro _
    cases rest with
    | nil =>
      refine ⟨by simp [argminIdx], ?_, ?_⟩
      · intro k hk
        simp only [List.length_singleton] at hk
        have hk0 : k = 0 := by omega
        subst hk0
        simp [argminIdx]
      · intro k hk
        simp only [argminIdx] at hk
        omega
    | cons w2 rest2 =>
      obtain ⟨ih1, ih2, ih3⟩ := ih (by simp)
      by_cases hlt : (w2 :: rest2).getD (argminIdx (w2 :: rest2)) 0 < v
      · have heq : argminIdx (v :: w2 :: rest2) = argminIdx (w2 :: rest2) + 1 := by
          simp only [argminIdx]
          rw [if_pos hlt]
        refine ⟨?_, ?_, ?_⟩
        · rw [heq]
          simp only [List.length_cons] at ih1 ⊢
          omega
        · intro k hk
          rw [heq, List.getD_cons_succ]
          cases k with
          | zero => rw [List.getD_cons_zero]; exact le_of_lt hlt
          | succ k2 =>
            rw [List.getD_cons_succ]
            apply ih2
            simp only [List.length_cons] at hk ⊢
            omega
        · intro k hk
          rw [heq] at hk
          rw [heq, List.getD_cons_succ]
          cases k with
          | zero => rw [List.getD_cons_zero]; exact hlt
          | succ k2 =>
            rw [List.getD_cons_succ]
            exact ih3 k2 (by omega)
      · have heq : argminIdx (v :: w2 :: rest2) = 0 := by
          simp only [argminIdx]
          rw [if_neg hlt]
        refine ⟨by rw [heq]; simp, ?_, ?_⟩
        · intro k hk
          rw [heq, List.getD_cons_zero]
          cases k with
          | zero => rw [List.getD_cons_zero]
          | succ k2 =>
            rw [List.getD_cons_succ]
            refine le_trans (le_of_not_lt hlt) (ih2 k2 ?_)
            simp only [List.length_cons] at hk ⊢
            omega
        · intro k hk
          rw [heq] at hk
          omega

/-- Entry `k` of a mapped range. -/
theorem getD_range_map (f : ℕ → ℚ) (n k : ℕ) (hk : k < n) :
    ((List.range n).map f).getD k 0 = f k := by
  have hk2 : k < ((List.range n).map f).length := by
    simp only [List.length_map, List.length_range]
    exact hk
  rw [List.getD_eq_getElem _ _ hk2, List.getElem_map]
  simp [List.getElem_range]

/-- A sliding-window difference is nonnegative. -/
theorem sadSpec_nonneg (series : List ℚ) (w k : ℕ) : 0 ≤ sadSpec series w k :=
  Finset.sum_nonneg fun _ _ => abs_nonneg _

/-- Counterexample to C9 as stated: on `series = [0, 1/2, 0]` with window
length `1`, the sum of absolute differences at the single offset is `1/2`,
but `SWD` records `int(1/2) = 0` in the difference profile — the returned
profile does not hold the sums of absolute differences. -/
theorem claim9_counterexample :
    SWD [0, 1/2, 0] 1 = .ok (1, [0]) ∧
    sadSpec [0, 1/2, 0] 1 0 = 1/2 ∧
    (0 : ℚ) ≠ 1/2 := by
  refine ⟨?_, ?_, by norm_num⟩
  · norm_num [SWD, swdDifferences, sadImpl, argminIdx, List.range_succ, abs]
  · norm_num [sadSpec, Finset.sum_range_succ, abs]

/-- C9 (amended): `SWD series w`, when it returns, yields
`(w + argmin, differences)` where `differences[k]` is the integer-truncated
(floored) sum of absolute differences between the reference window
`series[0:w]` and the window at offset `w + k`, and `argmin` is the index of
the first minimum of that truncated profile (in range, minimal, strictly below
every earlier entry); moreover on a `w`-periodic sequence the first profile
entry is `0` and the returned offset is exactly `w`. -/
theorem claim9_swd (series : List ℚ) (w o : ℕ) (d : List ℚ)
    (hres : SWD series w = .ok (o, d)) :
    d.length = series.length - 2 * w ∧
    (∀ k, k < d.length → d.getD k 0 = ((⌊sadSpec series w k⌋ : ℤ) : ℚ)) ∧
    w ≤ o ∧
    o - w < d.length ∧
    (∀ k, k < d.length → d.getD (o - w) 0 ≤ d.getD k 0) ∧
    (∀ k, k < o - w → d.getD (o - w) 0 < d.getD k 0) ∧
    ((∀ j, j + w < series.length → series.getD (j + w) 0 = series.getD j 0) →
      d.getD 0 0 = 0 ∧ o = w) := by
  unfold SWD at hres
  by_cases hL : series.length < 2 * w
  · rw [if_pos hL] at hres
    exact Except.noConfusion hres
  · rw [if_neg hL] at hres
    by_cases hz : (swdDifferences series w).length = 0
    · rw [if_pos hz] at hres
      exact Except.noConfusion hres
    · rw [if_neg hz] at hres
      injection hres with hres
      injection hres with h1 h2
      subst h2
      subst h1
      have hlenD : (swdDifferences series w).length = series.length - 2 * w := by
        simp [swdDifferences]
      have hent : ∀ k, k < (swdDifferences series w).length →
          (swdDifferences series w).getD k 0 = ((⌊sadSpec series w k⌋ : ℤ) : ℚ) := by
        intro k hk
        rw [hlenD] at hk
        unfold swdDifferences
        rw [getD_range_map _ _ _ hk, sadImpl_eq_spec series w k (by omega)]
      obtain ⟨a1, a2, a3⟩ := argminIdx_spec (swdDifferences series w)
        (fun hD => hz (by simp [hD]))
      have hsub : argminIdx (swdDifferences series w) + w - w =
          argminIdx (swdDifferences series w) := by omega
      refine ⟨hlenD, hent, by omega, by rw [hsub]; exact a1,
        by rw [hsub]; exact a2, by rw [hsub]; exact a3, ?_⟩
      intro hper
      have h0lt : 0 < (swdDifferences series w).length := by omega
      have hsad0 : sadSpec series w 0 = 0 := by
        unfold sadSpec
        refine Finset.sum_eq_zero ?_
        intro j hj
        rw [Finset.mem_range] at hj
        have hjw : j + w < series.length := by omega
        have hidx : w + 0 + j = j + w := by omega
        rw [hidx, hper j hjw, sub_self, abs_zero]
      have hD0 : (swdDifferences series w).getD 0 0 = 0 := by
        rw [hent 0 h0lt, hsad0]
        norm_num
      have hnonneg : ∀ k, k < (swdDifferences series w).length →
          0 ≤ (swdDifferences series w).getD k 0 := by
        intro k hk
        rw [hent k hk]
        exact_mod_cast Int.floor_nonneg.mpr (sadSpec_nonneg series w k)
      have hargmin0 : argminIdx (swdDifferences series w) = 0 := by
        by_contra hne
        have hpos : 0 < argminIdx (swdDifferences series w) := Nat.pos_of_ne_zero hne
        have h2 := a3 0 hpos
        rw [hD0] at h2
        exact absurd h2 (not_lt.mpr (hnonneg _ a1))
      exact ⟨hD0, by omega⟩

/-- Witness for C9 (amended): tiling the period-2 pattern `[1, 2]` three
times and searching with window length `2` gives profile `[0, 2]` and offset
`2`; the theorem applied to this run confirms the zero first entry and the
returned offset `w`. -/
theorem claim9_witness :
    ([0, (2 : ℚ)] : List ℚ).getD 0 0 = 0 ∧ 2 = 2 :=
  (claim9_swd [1, 2, 1, 2, 1, 2] 2 2 [0, 2]
    (by norm_num [SWD, swdDifferences, sadImpl, argminIdx, List.range_succ, abs])).2.2.2.2.2.2
    (by
      intro j hj
      simp only [List.length_cons, List.length_nil] at hj
      have hj4 : j < 4 := by omega
      interval_cases j <;> norm_num [List.getD])

end EasyESN
